import Mathlib

/-!
Verification of the feed-digest pipeline in `digest.js` (alphabot-news-digest).

The development shallowly embeds the item data model, the sort comparator,
the URL deduplication pass, the entity decoder, and the regex-based feed
extraction of `digest.js` as executable Lean definitions, and proves the
specification's claims about them.

Strings are modelled as `List Char` (JavaScript strings are sequences of
UTF-16 code units; every string appearing in this development consists of
code points below the surrogate range, where the two representations agree).
-/

set_option maxRecDepth 8192

/-- The normalized item record built by `extractItems` in `digest.js`:
`{ source, category, title, url, published, summary }`.  The `published`
field is an ISO-8601 instant or `null` in the source; since the sort
comparator immediately converts it back to epoch milliseconds via
`new Date(...)`, it is modelled as the underlying instant (`Option Int`,
milliseconds since the epoch). -/
structure Item where
  source : String
  category : String
  title : String
  url : String
  published : Option Int
  summary : String
deriving DecidableEq, Repr

/-- The comparator passed to `allItems.sort` in `digest.js` (lines 168-172):
`if (!a.published) return 1; if (!b.published) return -1;
return new Date(b.published) - new Date(a.published);`. -/
def sortCmp (a b : Item) : Int :=
  match a.published, b.published with
  | none, _ => 1
  | some _, none => -1
  | some ta, some tb => tb - ta

/-- `Array.prototype.sort` is a stable merge sort; its merge step takes an
element from the right run before the left run only when the comparator
orders it strictly earlier, i.e. the left element is emitted first exactly
when `sortCmp right left ≥ 0`.  This is the `le` relation driving the
stable sort. -/
def sortLe (a b : Item) : Bool :=
  decide (0 ≤ sortCmp b a)

/-- The sort stage of `main` (`allItems.sort(comparator)`), modelled as a
stable merge sort with the comparator-induced relation `sortLe`. -/
def sortItems (l : List Item) : List Item :=
  l.mergeSort sortLe

/-- The deduplication stage of `main` (`digest.js` lines 174-180):
a forward pass keeping an item only when its `url` is non-empty
(`!item.url` drops the empty string, which is falsy) and not in the set of
previously seen URLs. -/
def dedupeByUrl (seen : List String) : List Item → List Item
  | [] => []
  | i :: rest =>
    if i.url = "" ∨ i.url ∈ seen then dedupeByUrl seen rest
    else i :: dedupeByUrl (i.url :: seen) rest

/-- The in-run post-processing of `main` on the concatenated item list:
first the sort stage (line 168), then the URL deduplication stage
(line 174). -/
def pipeline (items : List Item) : List Item :=
  dedupeByUrl [] (sortItems items)

/-- The order the specification asks of the final sequence: a pair `(a, b)`
may appear in this order iff `b` is not strictly more recent, where an item
lacking `published` counts as oldest. -/
def specOrdered (a b : Item) : Bool :=
  match a.published, b.published with
  | some ta, some tb => tb ≤ ta
  | some _, none => true
  | none, none => true
  | none, some _ => false

/-! Concrete items used in counterexamples and witnesses. -/

def itemA : Item := ⟨"feedA", "tech", "A", "http://a/1", some 0, ""⟩

def itemEmptyUrl : Item := ⟨"feedA", "tech", "E", "", none, ""⟩

def dupOld : Item := ⟨"feed1", "tech", "Old", "http://dup/1", some 1000, ""⟩

def dupNew : Item := ⟨"feed2", "tech", "New", "http://dup/1", some 2000, ""⟩

/-- Modelled from the spec: the Persisted Dedup Cache state (spec §3
"DedupCache", §4.5).  The cache component is not part of `src/digest.js`
(the README lists cross-run deduplication as a roadmap item); its stored
state is `{urls: set of string, updated: timestamp}`. -/
structure DedupCache where
  urls : List String
  updated : Int
deriving DecidableEq, Repr

/-- Modelled from the spec: "when enabled with a cache identifier, before
final output: drop every item whose `url` is present in the cache's stored
URL set" (spec §4.5). -/
def cacheFilter (cache : DedupCache) (items : List Item) : List Item :=
  items.filter (fun i => !(decide (i.url ∈ cache.urls)))

/-- Modelled from the spec: "After determining the final emitted set, union
their URLs into the cache's set and persist with an updated timestamp"
(spec §4.5). -/
def cacheUpdate (cache : DedupCache) (emitted : List Item) (now : Int) : DedupCache :=
  ⟨cache.urls ++ (emitted.map Item.url).filter (fun u => !(decide (u ∈ cache.urls))),
    now⟩

/-- Modelled from the spec: the orchestration around the cache (spec §4.7):
concatenated items go through the in-run Deduplicator, then the Persisted
Cache filter, then the Orderer; the cache is updated with the URLs of the
final emitted set. -/
def runDigest (cache : DedupCache) (items : List Item) (now : Int) :
    List Item × DedupCache :=
  let emitted := cacheFilter cache (dedupeByUrl [] items)
  (sortItems emitted, cacheUpdate cache emitted now)

/-! Character-level helpers for the regex-based text processing.  JavaScript
strings are sequences of UTF-16 code units, modelled as `List Char`. -/

/-- Digit test used by the regex class `\d`. -/
def isDigit (c : Char) : Bool :=
  decide ('0' ≤ c) && decide (c ≤ '9')

/-- Does the literal pattern match at the head of the text (case-sensitive),
as a regex literal without flags does? -/
def headMatchCS : List Char → List Char → Bool
  | [], _ => true
  | _ :: _, [] => false
  | p :: ps, c :: cs => p == c && headMatchCS ps cs

/-- Case-insensitive character comparison, for regexes with the `i` flag
(ASCII tag names, where JavaScript case folding agrees with `Char.toLower`). -/
def ciEq (a b : Char) : Bool :=
  a.toLower == b.toLower

/-- Does the literal pattern match at the head of the text, case-insensitively? -/
def headMatchCI : List Char → List Char → Bool
  | [], _ => true
  | _ :: _, [] => false
  | p :: ps, c :: cs => ciEq p c && headMatchCI ps cs

/-- Does the literal pattern occur (case-sensitively) anywhere in the text? -/
def occursIn (pat : List Char) : List Char → Bool
  | [] => headMatchCS pat []
  | c :: cs => headMatchCS pat (c :: cs) || occursIn pat cs

/-- Scanner of `replaceAll`, structurally recursive on a fuel bound: each
step consumes at least one character of the text, so `s.length` steps
always suffice and the fuel-exhausted branch is never reached on the
wrapper's call. -/
def replaceAllGo (pat rep : List Char) : Nat → List Char → List Char
  | _, [] => []
  | 0, s => s
  | fuel + 1, c :: cs =>
    if pat ≠ [] ∧ headMatchCS pat (c :: cs) then
      rep ++ replaceAllGo pat rep fuel ((c :: cs).drop pat.length)
    else c :: replaceAllGo pat rep fuel cs

/-- One global (`g`-flag) replacement of a literal pattern, scanning left to
right and restarting after each replacement, exactly as
`String.prototype.replace` with a literal global regex does. -/
def replaceAll (pat rep : List Char) (s : List Char) : List Char :=
  replaceAllGo pat rep s.length s

/-- Numeric value of a digit run, as JavaScript's number coercion computes it
for the strings produced by `\d+` (exact for the magnitudes arising here). -/
def digitsVal (ds : List Char) : Nat :=
  ds.foldl (fun a c => a * 10 + (c.toNat - 48)) 0

/-- `String.fromCharCode(n)`: the code unit `n mod 2^16`.  JavaScript can
produce lone surrogate code units here; those are not representable as
`Char` and do not occur in this development, all other values agree. -/
def fromCharCode (n : Nat) : Char :=
  Char.ofNat (n % 65536)

/-- After `&#`, is there a non-empty digit run directly followed by `;`
(the body of the pattern `&#(\d+);`)? -/
def numTailOk (cs : List Char) : Bool :=
  match cs.takeWhile isDigit with
  | [] => false
  | _ :: _ =>
    match cs.drop (cs.takeWhile isDigit).length with
    | ';' :: _ => true
    | _ => false

/-- Is there a decimal numeric character reference `&#digits;` at the head
of the text (the pattern `&#(\d+);`)? -/
def numRefAt : List Char → Bool
  | '&' :: '#' :: cs => numTailOk cs
  | _ => false

/-- Scanner of `decodeNumRefs`, structurally recursive on a fuel bound:
each step consumes at least one character, so `s.length` steps always
suffice on the wrapper's call. -/
def decodeNumRefsGo : Nat → List Char → List Char
  | _, [] => []
  | 0, s => s
  | fuel + 1, '&' :: '#' :: cs =>
    if numTailOk cs then
      fromCharCode (digitsVal (cs.takeWhile isDigit)) ::
        decodeNumRefsGo fuel (cs.drop ((cs.takeWhile isDigit).length + 1))
    else '&' :: decodeNumRefsGo fuel ('#' :: cs)
  | fuel + 1, c :: cs => c :: decodeNumRefsGo fuel cs

/-- The global replacement `.replace(/&#(\d+);/g, (_, n) =>
String.fromCharCode(n))` of `decodeEntities`, scanning left to right. -/
def decodeNumRefs (s : List Char) : List Char :=
  decodeNumRefsGo s.length s

/-- The entity decoder `decodeEntities` of `digest.js` (lines 117-126):
six global literal substitutions applied in source order (`&amp;` first),
then the generic decimal numeric character references. -/
def decodeEntitiesL (s : List Char) : List Char :=
  decodeNumRefs
    (replaceAll "&#x27;".data [Char.ofNat 39]
      (replaceAll "&#39;".data [Char.ofNat 39]
        (replaceAll "&quot;".data "\"".data
          (replaceAll "&gt;".data ">".data
            (replaceAll "&lt;".data "<".data
              (replaceAll "&amp;".data "&".data s))))))

/-- String-level wrapper of the entity decoder. -/
def decodeEntities (s : String) : String :=
  String.mk (decodeEntitiesL s.data)

/-- Does one of the entity patterns recognised by `decodeEntities` start at
the head of the text? -/
def startsEntity (s : List Char) : Bool :=
  headMatchCS "&amp;".data s || headMatchCS "&lt;".data s ||
    headMatchCS "&gt;".data s || headMatchCS "&quot;".data s ||
    headMatchCS "&#39;".data s || headMatchCS "&#x27;".data s || numRefAt s

/-- The text contains no entity syntax: no recognised entity pattern occurs
at any position. -/
def entityFree : List Char → Bool
  | [] => true
  | c :: cs => !(startsEntity (c :: cs)) && entityFree cs

/-- The text contains no decimal numeric character reference. -/
def noNumRef : List Char → Bool
  | [] => true
  | c :: cs => !(numRefAt (c :: cs)) && noNumRef cs

/-! Regex-based extraction machinery of `extractItems`. -/

deriving instance DecidableEq for Except

/-- Characters of the regex class `\s` and of `String.prototype.trim`
(the ASCII forms; the Unicode space variants do not occur in this
development). -/
def jsSpace (c : Char) : Bool :=
  c == ' ' || c == '\t' || c == '\n' || c == '\r' || c == '\x0b' || c == '\x0c'

/-- `String.prototype.trim`: strip leading and trailing whitespace. -/
def jsTrim (s : List Char) : List Char :=
  ((s.dropWhile jsSpace).reverse.dropWhile jsSpace).reverse

/-- Lazy scan `[\s\S]*?` bounded by a set of literal closing patterns
(tried in alternation order at every position, shortest content first, as a
lazy regex quantifier behaves): returns the content before the first
closing match together with the text after it.  The pattern matcher `hm`
is `headMatchCI` for `i`-flagged regexes and `headMatchCS` otherwise. -/
def lazyUntil (hm : List Char → List Char → Bool) (closers : List (List Char)) :
    List Char → Option (List Char × List Char)
  | [] =>
    match closers.find? (fun p => hm p []) with
    | some _ => some ([], [])
    | none => none
  | c :: cs =>
    match closers.find? (fun p => hm p (c :: cs)) with
    | some p => some ([], (c :: cs).drop p.length)
    | none =>
      match lazyUntil hm closers cs with
      | some (content, rest) => some (c :: content, rest)
      | none => none

/-- One attempt of the block pattern `<NAME[\s>][\s\S]*?</NAME>` (flags
`gi`) at the head of the text: the tag name must be followed by a
whitespace or `>`, and the lazy body runs to the first `</NAME>`.  On
success, returns the whole matched block (framing tags included, original
characters preserved) and the text after the match. -/
def matchBlockAt (name : List Char) (s : List Char) : Option (List Char × List Char) :=
  match s with
  | '<' :: rest =>
    if headMatchCI name rest then
      match rest.drop name.length with
      | [] => none
      | d :: rest2 =>
        if jsSpace d || d == '>' then
          match lazyUntil headMatchCI [('<' :: '/' :: name) ++ ['>']] rest2 with
          | some (content, after) =>
            some (s.take (content.length + 2 * name.length + 5), after)
          | none => none
        else none
    else none
  | _ => none

/-- All matches of the global block pattern: scanning resumes after each
match, and advances one character past positions where no match starts. -/
def blockMatches (name : List Char) (s : List Char) : List (List Char) :=
  match s with
  | [] => []
  | c :: cs =>
    match h : matchBlockAt name (c :: cs) with
    | some (block, rest) => block :: blockMatches name rest
    | none => blockMatches name cs
termination_by s.length
decreasing_by
  · have hgen : ∀ (hmf : List Char → List Char → Bool) (cls : List (List Char))
        (s2 : List Char), ∀ (content2 rest2 : List Char),
        lazyUntil hmf cls s2 = some (content2, rest2) →
        rest2.length ≤ s2.length := by
      intro hmf cls s2
      induction s2 with
      | nil =>
        intro content2 rest2 h2
        rw [lazyUntil] at h2
        split at h2
        · injection h2 with h3
          injection h3 with _ h4
          simp [← h4]
        · exact absurd h2 (by simp)
      | cons c2 cs2 ih =>
        intro content2 rest2 h2
        rw [lazyUntil] at h2
        split at h2
        · injection h2 with h3
          injection h3 with _ h4
          rw [← h4]
          simp
        · split at h2
          · rename_i content3 rest3 hrec
            injection h2 with h3
            injection h3 with _ h4
            have := ih content3 rest3 hrec
            rw [← h4]
            simp
            omega
          · exact absurd h2 (by simp)
    rw [matchBlockAt.eq_def] at h
    split at h
    · rename_i tail heq
      injection heq with hceq hcseq
      split at h
      · split at h
        · exact absurd h (by simp)
        · rename_i d rest2x hdrop
          split at h
          · split at h
            · rename_i content after hlazy
              injection h with h2
              injection h2 with hb hrest
              have h4 := hgen headMatchCI [('<' :: '/' :: name) ++ ['>']]
                rest2x content after hlazy
              have h5 : (tail.drop name.length).length = rest2x.length + 1 := by
                rw [hdrop]
                simp
              have h6 : (tail.drop name.length).length = tail.length - name.length := by
                simp
              subst hrest
              simp only [List.length_cons]
              rw [hcseq]
              omega
            · exact absurd h (by simp)
          · exact absurd h (by simp)
      · exact absurd h (by simp)
    · exact absurd h (by simp)
  · simp [Nat.lt_succ_self]

/-- Match of the open-tag pattern `<NAME[^>]*>` at the head of the text
(case-insensitive): the greedy `[^>]*` runs to the first `>`, which must
exist.  Returns the text after that `>`. -/
def matchOpenTagOne (name : List Char) (s : List Char) : Option (List Char) :=
  match s with
  | '<' :: rest =>
    if headMatchCI name rest then
      match (rest.drop name.length).dropWhile (fun c => !(c == '>')) with
      | '>' :: rest2 => some rest2
      | _ => none
    else none
  | _ => none

/-- Open-tag alternation `<(?:NAME1|NAME2)[^>]*>`: alternatives tried in
order at the same position. -/
def matchOpenTagAny : List (List Char) → List Char → Option (List Char)
  | [], _ => none
  | n :: ns, s =>
    match matchOpenTagOne n s with
    | some r => some r
    | none => matchOpenTagAny ns s

/-- Closing-tag literals `</NAME>` for an alternation of tag names. -/
def closersFor (names : List (List Char)) : List (List Char) :=
  names.map (fun n => ('<' :: '/' :: n) ++ ['>'])

/-- First match of `<(?:NAMES)[^>]*>([\s\S]*?)</(?:NAMES)>` (flag `i`),
scanning start positions left to right as the regex engine does (a start
whose open tag has no subsequent closing tag is abandoned and the scan
moves one character forward).  Returns the lazy capture group. -/
def firstTagCapture (names : List (List Char)) : List Char → Option (List Char)
  | [] => none
  | c :: cs =>
    match matchOpenTagAny names (c :: cs) with
    | some afterOpen =>
      match lazyUntil headMatchCI (closersFor names) afterOpen with
      | some (content, _) => some content
      | none => firstTagCapture names cs
    | none => firstTagCapture names cs

/-- Scanner of `stripCdata`, structurally recursive on a fuel bound: each
step consumes at least one character, so `s.length` steps always suffice on
the wrapper's call. -/
def stripCdataGo : Nat → List Char → List Char
  | _, [] => []
  | 0, s => s
  | fuel + 1, c :: cs =>
    if headMatchCS "<![CDATA[".data (c :: cs) then
      match lazyUntil headMatchCS ["]]>".data] ((c :: cs).drop 9) with
      | some (content, rest) => content ++ stripCdataGo fuel rest
      | none => c :: stripCdataGo fuel cs
    else c :: stripCdataGo fuel cs

/-- The global replacement `.replace(/<!\[CDATA\[([\s\S]*?)\]\]>/g, '$1')`:
each CDATA wrapper is unwrapped to its lazy content (case-sensitive). -/
def stripCdata (s : List Char) : List Char :=
  stripCdataGo s.length s

/-- Scanner of `stripTags`, structurally recursive on a fuel bound: each
step consumes at least one character, so `s.length` steps always suffice on
the wrapper's call. -/
def stripTagsGo : Nat → List Char → List Char
  | _, [] => []
  | 0, s => s
  | fuel + 1, '<' :: cs =>
    (match cs.takeWhile (fun c => !(c == '>')) with
     | [] => '<' :: stripTagsGo fuel cs
     | _ :: _ =>
       match cs.drop (cs.takeWhile (fun c => !(c == '>'))).length with
       | '>' :: rest => stripTagsGo fuel rest
       | _ => '<' :: stripTagsGo fuel cs)
  | fuel + 1, c :: cs => c :: stripTagsGo fuel cs

/-- The global replacement `.replace(/<[^>]+>/g, '')`: every `<` followed
by at least one non-`>` character and then `>` is removed; elsewhere the
scan advances one character. -/
def stripTags (s : List Char) : List Char :=
  stripTagsGo s.length s

/-- Attempt of `href="([^"]*)"[^>]*>` at offset `k` inside the tag body
(case-insensitive): the capture runs greedily to the next `"`, and a `>`
must follow somewhere after the closing quote. -/
def hrefAtOffset (s : List Char) (k : Nat) : Option (List Char) :=
  if headMatchCI "href=\"".data (s.drop k) then
    match (s.drop (k + 6)).dropWhile (fun c => !(c == '"')) with
    | '"' :: rest3 =>
      match rest3.dropWhile (fun c => !(c == '>')) with
      | '>' :: _ => some ((s.drop (k + 6)).takeWhile (fun c => !(c == '"')))
      | _ => none
    | _ => none
  else none

/-- Backtracking of the greedy `[^>]*` before `href="`: offsets are tried
from the longest prefix of non-`>` characters down to zero. -/
def hrefSearch (s : List Char) : Nat → Option (List Char)
  | 0 => hrefAtOffset s 0
  | k + 1 =>
    match hrefAtOffset s (k + 1) with
    | some cap => some cap
    | none => hrefSearch s k

/-- Attempt of the Atom link pattern `<link[^>]*href="([^"]*)"[^>]*>`
(flag `i`) at the head of the text. -/
def atomLinkAt (s : List Char) : Option (List Char) :=
  match s with
  | '<' :: rest =>
    if headMatchCI "link".data rest then
      hrefSearch (rest.drop 4) ((rest.drop 4).takeWhile (fun c => !(c == '>'))).length
    else none
  | _ => none

/-- First match of the Atom link pattern, scanning start positions left to
right; returns the `href` capture. -/
def atomHrefCapture : List Char → Option (List Char)
  | [] => none
  | c :: cs =>
    match atomLinkAt (c :: cs) with
    | some cap => some cap
    | none => atomHrefCapture cs

/-! A model of the JavaScript `Date` parser, on the ISO-8601 profile
`YYYY-MM-DD`, `YYYY-MM-DDTHH:MM:SSZ` and `YYYY-MM-DDTHH:MM:SS.mmmZ` with
in-range calendar fields, where every engine agrees and
`new Date(str).toISOString()` round-trips.  All other strings are
modelled as unparseable (`none`), matching the runtime on every date
string evaluated in this development (e.g. `not a date` is Invalid Date,
and `.toISOString()` on it throws a `RangeError`). -/

/-- Gregorian leap-year test. -/
def isLeap (y : Nat) : Bool :=
  (y % 4 == 0 && y % 100 != 0) || y % 400 == 0

/-- Days in a month of the proleptic Gregorian calendar. -/
def daysInMonth (y m : Nat) : Nat :=
  if m == 2 then (if isLeap y then 29 else 28)
  else if m == 4 || m == 6 || m == 9 || m == 11 then 30
  else 31

/-- Days from the epoch 1970-01-01 to the civil date `y-m-d` (era-based
civil-calendar algorithm; `y ≥ 1000` keeps all intermediate values in
`Nat`). -/
def civilDays (y m d : Nat) : Int :=
  let y2 := if m ≤ 2 then y - 1 else y
  let era := y2 / 400
  let yoe := y2 % 400
  let mp := (m + 9) % 12
  let doy := (153 * mp + 2) / 5 + d - 1
  let doe := yoe * 365 + yoe / 4 - yoe / 100 + doy
  (((era * 146097 + doe : Nat) : Int)) - 719468

/-- Millisecond instant for validated ISO fields, or `none` when a field
is out of range (the runtime yields Invalid Date then). -/
def mkUTC (ys ms ds hs mins secs fs : List Char) : Option Int :=
  if (ys ++ ms ++ ds ++ hs ++ mins ++ secs ++ fs).all isDigit then
    let y := digitsVal ys
    let m := digitsVal ms
    let d := digitsVal ds
    let h := digitsVal hs
    let mi := digitsVal mins
    let se := digitsVal secs
    let ms3 := digitsVal fs
    if 1000 ≤ y ∧ 1 ≤ m ∧ m ≤ 12 ∧ 1 ≤ d ∧ d ≤ daysInMonth y m ∧
        h ≤ 23 ∧ mi ≤ 59 ∧ se ≤ 59 then
      some (civilDays y m d * 86400000 +
        ((h * 3600000 + mi * 60000 + se * 1000 + ms3 : Nat) : Int))
    else none
  else none

/-- The model of `new Date(str)` on the supported ISO profile. -/
def jsDateParse (s : List Char) : Option Int :=
  match s with
  | [y1, y2, y3, y4, '-', m1, m2, '-', d1, d2] =>
    mkUTC [y1, y2, y3, y4] [m1, m2] [d1, d2] ['0'] ['0'] ['0'] ['0']
  | [y1, y2, y3, y4, '-', m1, m2, '-', d1, d2, 'T',
     h1, h2, ':', n1, n2, ':', s1, s2, 'Z'] =>
    mkUTC [y1, y2, y3, y4] [m1, m2] [d1, d2] [h1, h2] [n1, n2] [s1, s2] ['0']
  | [y1, y2, y3, y4, '-', m1, m2, '-', d1, d2, 'T',
     h1, h2, ':', n1, n2, ':', s1, s2, '.', f1, f2, f3, 'Z'] =>
    mkUTC [y1, y2, y3, y4] [m1, m2] [d1, d2] [h1, h2] [n1, n2] [s1, s2] [f1, f2, f3]
  | _ => none

/-- Build the item object literal of `extractItems`: `title` is
entity-decoded, `url` is `link || ''`, `summary` is entity-decoded when
the capped description is non-empty (`desc ? decodeEntities(desc) : ''`). -/
def mkItemRecord (feedName category : String) (t : List Char)
    (link : Option (List Char)) (pub : Option Int)
    (desc : Option (List Char)) : Item :=
  { source := feedName
    category := category
    title := String.mk (decodeEntitiesL t)
    url :=
      match link with
      | some l => String.mk l
      | none => ""
    published := pub
    summary :=
      match desc with
      | some d => if d.isEmpty then "" else String.mk (decodeEntitiesL d)
      | none => "" }

/-- Field extraction for one RSS `<item>` block (`digest.js` lines 75-89):
`title`/`link` are CDATA-unwrapped and trimmed, `pubDate` trimmed,
`description` CDATA-unwrapped, tag-stripped, trimmed and capped to 300
characters before entity decoding.  A block without a (non-empty) title
yields no item; a present but unparseable `pubDate` makes
`new Date(pubDate).toISOString()` throw, modelled as `Except.error ()`. -/
def mkRssItem (feedName category : String) (raw : List Char) :
    Except Unit (Option Item) :=
  let title := (firstTagCapture ["title".data] raw).map (fun t => jsTrim (stripCdata t))
  let link := (firstTagCapture ["link".data] raw).map (fun t => jsTrim (stripCdata t))
  let pubDate := (firstTagCapture ["pubDate".data] raw).map jsTrim
  let desc := (firstTagCapture ["description".data] raw).map
    (fun t => (jsTrim (stripTags (stripCdata t))).take 300)
  match title with
  | none => Except.ok none
  | some t =>
    if t.isEmpty then Except.ok none
    else
      match pubDate with
      | some p =>
        if p.isEmpty then
          Except.ok (some (mkItemRecord feedName category t link none desc))
        else
          match jsDateParse p with
          | some ms => Except.ok (some (mkItemRecord feedName category t link (some ms) desc))
          | none => Except.error ()
      | none => Except.ok (some (mkItemRecord feedName category t link none desc))

/-- Field extraction for one Atom `<entry>` block (`digest.js` lines
96-110): `title` as in RSS; `link` from the href-bearing link element;
the timestamp from `updated` or `published`; the body from `summary` or
`content`, processed like an RSS description. -/
def mkAtomItem (feedName category : String) (raw : List Char) :
    Except Unit (Option Item) :=
  let title := (firstTagCapture ["title".data] raw).map (fun t => jsTrim (stripCdata t))
  let link := atomHrefCapture raw
  let updated := (firstTagCapture ["updated".data, "published".data] raw).map jsTrim
  let body := (firstTagCapture ["summary".data, "content".data] raw).map
    (fun t => (jsTrim (stripTags (stripCdata t))).take 300)
  match title with
  | none => Except.ok none
  | some t =>
    if t.isEmpty then Except.ok none
    else
      match updated with
      | some p =>
        if p.isEmpty then
          Except.ok (some (mkItemRecord feedName category t link none body))
        else
          match jsDateParse p with
          | some ms => Except.ok (some (mkItemRecord feedName category t link (some ms) body))
          | none => Except.error ()
      | none => Except.ok (some (mkItemRecord feedName category t link none body))

/-- The extraction loop over a list of blocks: items are accumulated in
order, a thrown exception aborts the whole extraction. -/
def collectItems (f : List Char → Except Unit (Option Item)) :
    List (List Char) → Except Unit (List Item)
  | [] => Except.ok []
  | b :: bs =>
    match f b with
    | Except.error e => Except.error e
    | Except.ok none => collectItems f bs
    | Except.ok (some i) =>
      match collectItems f bs with
      | Except.error e => Except.error e
      | Except.ok rest => Except.ok (i :: rest)

/-- The RSS pass of `extractItems`: all `<item>` blocks. -/
def rssPass (xml : List Char) (feedName category : String) : Except Unit (List Item) :=
  collectItems (mkRssItem feedName category) (blockMatches "item".data xml)

/-- The Atom pass of `extractItems`: all `<entry>` blocks. -/
def atomPass (xml : List Char) (feedName category : String) : Except Unit (List Item) :=
  collectItems (mkAtomItem feedName category) (blockMatches "entry".data xml)

/-- `extractItems(xml, feedName, category)` of `digest.js`: the RSS pass
runs first; the Atom pass is attempted exactly when the RSS pass produced
zero items (`if (items.length === 0)`). -/
def extractItems (xml : List Char) (feedName category : String) :
    Except Unit (List Item) :=
  match rssPass xml feedName category with
  | Except.error e => Except.error e
  | Except.ok items =>
    if items.length = 0 then atomPass xml feedName category
    else Except.ok items

/-- Follows the specification's words for C8 (a reading the code does not
implement): the length cap applied after the full normalization, i.e. the
first 300 characters of the CDATA-unwrapped, tag-stripped, trimmed and
entity-decoded text. -/
def specNormalizeSummary (raw : List Char) : List Char :=
  (decodeEntitiesL (jsTrim (stripTags (stripCdata raw)))).take 300

/-- The feed document of the C3 failing input: a titled RSS item whose
`pubDate` is present but not a parseable date. -/
def badDateXml : List Char :=
  "<item><title>T</title><pubDate>not a date</pubDate></item>".data

/-- The C4 counterexample document: one RSS `<item>` block without a
title, followed by an Atom `<entry>` block with a title. -/
def mixedXml : List Char :=
  "<item>x</item><entry><title>A</title></entry>".data

/-- The C8 counterexample description: 61 copies of `&amp;`, 305
characters in all. -/
def c8descStr : String := String.join (List.replicate 61 "&amp;")

/-- The C8 counterexample feed document. -/
def c8xml : String :=
  "<item><title>T</title><description>" ++ c8descStr ++ "</description></item>"

/-! Basic facts about the comparator relation. -/

theorem sortLe_total (a b : Item) : sortLe a b || sortLe b a := by
  obtain ⟨_, _, _, _, pa, _⟩ := a
  obtain ⟨_, _, _, _, pb, _⟩ := b
  rcases pa with _ | ta <;> rcases pb with _ | tb <;>
    simp [sortLe, sortCmp] <;> omega

theorem sortLe_trans (a b c : Item) : sortLe a b → sortLe b c → sortLe a c := by
  obtain ⟨_, _, _, _, pa, _⟩ := a
  obtain ⟨_, _, _, _, pb, _⟩ := b
  obtain ⟨_, _, _, _, pc, _⟩ := c
  rcases pa with _ | ta <;> rcases pb with _ | tb <;> rcases pc with _ | tc <;>
    simp [sortLe, sortCmp] <;> omega

theorem sortItems_pairwise (l : List Item) :
    (sortItems l).Pairwise (fun a b => sortLe a b = true) :=
  @List.sorted_mergeSort Item sortLe sortLe_trans sortLe_total l

theorem sortItems_perm (l : List Item) : List.Perm (sortItems l) l :=
  List.mergeSort_perm l sortLe

theorem specOrdered_eq_sortLe (a b : Item) : specOrdered a b = sortLe a b := by
  obtain ⟨_, _, _, _, pa, _⟩ := a
  obtain ⟨_, _, _, _, pb, _⟩ := b
  rcases pa with _ | ta <;> rcases pb with _ | tb <;>
    simp [specOrdered, sortLe, sortCmp] <;> omega

/-- Stability of the sort stage on undated items: the null-published items
of the output are the null-published items of the input, in input order. -/
theorem sortItems_filter_none (l : List Item) :
    (sortItems l).filter (fun i => i.published.isNone) =
      l.filter (fun i => i.published.isNone) := by
  have hsub : List.Sublist (l.filter (fun i => i.published.isNone)) (sortItems l) := by
    apply List.sublist_mergeSort sortLe_trans sortLe_total
    · refine List.pairwise_of_forall_mem_list ?_
      intro a _ b hb
      have hnb := (List.mem_filter.mp hb).2
      rw [Option.isNone_iff_eq_none] at hnb
      simp [sortLe, sortCmp, hnb]
    · exact List.filter_sublist l
  have hperm : List.Perm ((sortItems l).filter (fun i => i.published.isNone))
      (l.filter (fun i => i.published.isNone)) :=
    (sortItems_perm l).filter (fun i => i.published.isNone)
  have hsub2 : List.Sublist (l.filter (fun i => i.published.isNone))
      ((sortItems l).filter (fun i => i.published.isNone)) := by
    have h2 := hsub.filter (fun i => i.published.isNone)
    have h3 : (l.filter (fun i => i.published.isNone)).filter
        (fun i => i.published.isNone) = l.filter (fun i => i.published.isNone) :=
      List.filter_eq_self.mpr (fun a ha => (List.mem_filter.mp ha).2)
    rwa [h3] at h2
  exact (hsub2.eq_of_length hperm.length_eq.symm).symm

/-! Properties of the deduplication pass. -/

theorem dedup_sublist (seen : List String) (l : List Item) :
    List.Sublist (dedupeByUrl seen l) l := by
  induction l generalizing seen with
  | nil => simp [dedupeByUrl]
  | cons j rest ih =>
    rw [dedupeByUrl]
    split
    · exact (ih seen).cons j
    · exact (ih (j.url :: seen)).cons₂ j

theorem dedup_url_ne_empty (seen : List String) (l : List Item) (i : Item)
    (h : i ∈ dedupeByUrl seen l) : i.url ≠ "" := by
  induction l generalizing seen with
  | nil => simp [dedupeByUrl] at h
  | cons j rest ih =>
    rw [dedupeByUrl] at h
    split at h
    · exact ih seen h
    · rcases List.mem_cons.mp h with rfl | h2
      · rename_i hcond
        push_neg at hcond
        exact hcond.1
      · exact ih (j.url :: seen) h2

theorem dedup_url_not_seen (seen : List String) (l : List Item) (i : Item)
    (h : i ∈ dedupeByUrl seen l) : i.url ∉ seen := by
  induction l generalizing seen with
  | nil => simp [dedupeByUrl] at h
  | cons j rest ih =>
    rw [dedupeByUrl] at h
    split at h
    · exact ih seen h
    · rcases List.mem_cons.mp h with rfl | h2
      · rename_i hcond
        push_neg at hcond
        exact hcond.2
      · have := ih (j.url :: seen) h2
        exact fun hmem => this (List.mem_cons_of_mem _ hmem)

theorem dedup_pairwise_url (seen : List String) (l : List Item) :
    (dedupeByUrl seen l).Pairwise (fun a b => a.url ≠ b.url) := by
  induction l generalizing seen with
  | nil => simp [dedupeByUrl]
  | cons j rest ih =>
    rw [dedupeByUrl]
    split
    · exact ih seen
    · refine List.Pairwise.cons ?_ (ih (j.url :: seen))
      intro b hb hurl
      exact dedup_url_not_seen _ _ _ hb (hurl ▸ List.mem_cons_self _ _)

theorem dedup_mem_iff (l : List Item) (seen : List String) (i : Item) :
    i ∈ dedupeByUrl seen l ↔
      i.url ≠ "" ∧ i.url ∉ seen ∧ l.find? (fun j => j.url == i.url) = some i := by
  induction l generalizing seen with
  | nil => simp [dedupeByUrl]
  | cons j rest ih =>
    rw [dedupeByUrl]
    by_cases hji : j.url = i.url
    · split
      · rename_i hcond
        constructor
        · intro hmem
          obtain ⟨hne, hns, _⟩ := (ih seen).mp hmem
          rcases hcond with hj | hj
          · exact absurd (hji.symm.trans hj) hne
          · exact absurd (hji ▸ hj) hns
        · rintro ⟨hne, hns, _⟩
          rcases hcond with hj | hj
          · exact absurd (hji.symm.trans hj) hne
          · exact absurd (hji ▸ hj) hns
      · rename_i hcond
        push_neg at hcond
        have hfind : (j :: rest).find? (fun k => k.url == i.url) = some j := by
          rw [List.find?_cons_of_pos]
          simp [hji]
        rw [hfind]
        constructor
        · intro hmem
          rcases List.mem_cons.mp hmem with rfl | h2
          · exact ⟨hcond.1, hcond.2, rfl⟩
          · obtain ⟨hne, hns, _⟩ := (ih (j.url :: seen)).mp h2
            exact absurd (hji ▸ List.mem_cons_self j.url seen) hns
        · rintro ⟨hne, hns, hj⟩
          have : j = i := by injection hj
          exact this ▸ List.mem_cons_self j _
    · have hfind : (j :: rest).find? (fun k => k.url == i.url) =
          rest.find? (fun k => k.url == i.url) := by
        rw [List.find?_cons_of_neg]
        simp [hji]
      rw [hfind]
      split
      · exact ih seen
      · rename_i hcond
        push_neg at hcond
        constructor
        · intro hmem
          rcases List.mem_cons.mp hmem with rfl | h2
          · exact absurd rfl hji
          · obtain ⟨hne, hns, hf⟩ := (ih (j.url :: seen)).mp h2
            exact ⟨hne, fun hmem2 => hns (List.mem_cons_of_mem _ hmem2), hf⟩
        · rintro ⟨hne, hns, hf⟩
          refine List.mem_cons_of_mem j ((ih (j.url :: seen)).mpr ⟨hne, ?_, hf⟩)
          intro hmem2
          rcases List.mem_cons.mp hmem2 with heq | h3
          · exact hji heq.symm
          · exact hns h3

theorem filter_url_eq_of_pairwise (l : List Item) (i : Item)
    (hp : l.Pairwise (fun a b => a.url ≠ b.url)) (hmem : i ∈ l) :
    l.filter (fun j => j.url == i.url) = [i] := by
  induction l with
  | nil => simp at hmem
  | cons a rest ih =>
    rcases List.mem_cons.mp hmem with rfl | h2
    · rw [List.filter_cons_of_pos (by simp)]
      have hrest : rest.filter (fun j => j.url == i.url) = [] := by
        rw [List.filter_eq_nil_iff]
        intro b hb
        simp only [beq_iff_eq]
        exact fun h => (List.rel_of_pairwise_cons hp hb) h.symm
      rw [hrest]
    · have hne : a.url ≠ i.url := List.rel_of_pairwise_cons hp h2
      rw [List.filter_cons_of_neg (by simp [hne])]
      exact ih (List.Pairwise.sublist (List.sublist_cons_self a rest) hp) h2

/-- C5: for every input list, the sorted output is monotonically
non-increasing by `published` among dated items and places every
null-published item after every dated item (`specOrdered` holds pairwise),
and null-published items keep their relative input order among themselves
(their filtered subsequence is unchanged). -/
theorem claim_c5 (l : List Item) :
    (sortItems l).Pairwise (fun a b => specOrdered a b = true) ∧
      (sortItems l).filter (fun i => i.published.isNone) =
        l.filter (fun i => i.published.isNone) := by
  refine ⟨?_, sortItems_filter_none l⟩
  exact (sortItems_pairwise l).imp (fun h => by rw [specOrdered_eq_sortLe]; exact h)

/-- C6: the deduplication stage's output has no two items with the same
URL, every empty-`url` item is absent from the output, and an item is in
the output iff its `url` is non-empty and it is the first item of the
input carrying that `url` (i.e. it was not previously seen). -/
theorem claim_c6 (l : List Item) :
    (dedupeByUrl [] l).Pairwise (fun a b => a.url ≠ b.url) ∧
      (∀ i, i ∈ dedupeByUrl [] l → i.url ≠ "") ∧
      (∀ i, i ∈ dedupeByUrl [] l ↔
        i.url ≠ "" ∧ l.find? (fun j => j.url == i.url) = some i) := by
  refine ⟨dedup_pairwise_url [] l, fun i h => dedup_url_ne_empty [] l i h, fun i => ?_⟩
  rw [dedup_mem_iff]
  simp

theorem claim_c6_witness :
    itemA ∈ dedupeByUrl [] [itemA, itemA, itemEmptyUrl] ∧ itemA.url ≠ "" := by
  have h := claim_c6 [itemA, itemA, itemEmptyUrl]
  have hmem : itemA ∈ dedupeByUrl [] [itemA, itemA, itemEmptyUrl] :=
    (h.2.2 itemA).mpr ⟨by decide, by decide⟩
  exact ⟨hmem, h.2.1 itemA hmem⟩

unseal List.merge List.mergeSort in
/-- C7 counterexample: an item with empty `url` is dropped by the dedup
step (`!item.url` makes the filter return `false`), so it cannot appear in
the final output — refuting the claim that empty-URL items are retained. -/
theorem claim_c7_counterexample :
    itemEmptyUrl.url = "" ∧ pipeline [itemEmptyUrl] = [] := by decide

/-- C7 (amended): items with an empty `url` are always dropped by the
dedup step; every item of the final output has a non-empty `url`. -/
theorem claim_c7_amended (items : List Item) (i : Item) (h : i ∈ pipeline items) :
    i.url ≠ "" :=
  dedup_url_ne_empty [] (sortItems items) i h

unseal List.merge List.mergeSort in
theorem claim_c7_witness : itemA ∈ pipeline [itemA] ∧ itemA.url ≠ "" :=
  ⟨by decide, claim_c7_amended [itemA] itemA (by decide)⟩

unseal List.merge List.mergeSort in
/-- C2 counterexample: two feeds both carrying `http://dup/1`, the older
item first in the pre-dedup concatenation.  The final output keeps exactly
one item with that URL, but it is the newer `dupNew` (sorting runs before
deduplication), not the first item of the concatenation (`dupOld`). -/
theorem claim_c2_counterexample :
    dupOld.url = dupNew.url ∧ pipeline [dupOld, dupNew] = [dupNew] ∧
      dupNew ≠ dupOld := by decide

/-- C2 (amended): deduplication runs after sorting; for any non-empty URL
`u`, the final output contains exactly one item with `url = u`, namely the
first item carrying `u` in the post-sort order (so among dated duplicates
the newest wins, not the feed order). -/
theorem claim_c2_amended (items : List Item) (u : String) (i : Item)
    (hu : u ≠ "")
    (hfind : (sortItems items).find? (fun j => j.url == u) = some i) :
    (pipeline items).filter (fun j => j.url == u) = [i] := by
  have hiu : i.url = u := by
    have hp := List.find?_some hfind
    simpa using hp
  subst hiu
  have hmem : i ∈ dedupeByUrl [] (sortItems items) :=
    (dedup_mem_iff (sortItems items) [] i).mpr ⟨hu, by simp, hfind⟩
  exact filter_url_eq_of_pairwise _ i (dedup_pairwise_url [] _) hmem

unseal List.merge List.mergeSort in
theorem claim_c2_witness :
    ("http://dup/1" ≠ "" ∧
      (sortItems [dupOld, dupNew]).find? (fun j => j.url == "http://dup/1") =
        some dupNew) ∧
    (pipeline [dupOld, dupNew]).filter (fun j => j.url == "http://dup/1") =
      [dupNew] :=
  ⟨⟨by decide, by decide⟩,
    claim_c2_amended [dupOld, dupNew] "http://dup/1" dupNew (by decide) (by decide)⟩

theorem mem_sortItems {i : Item} {l : List Item} : i ∈ sortItems l ↔ i ∈ l :=
  List.mem_mergeSort

theorem mem_map_url_sortItems (u : String) (l : List Item) :
    u ∈ (sortItems l).map Item.url ↔ u ∈ l.map Item.url := by
  simp only [List.mem_map]
  constructor
  · rintro ⟨i, hi, rfl⟩
    exact ⟨i, mem_sortItems.mp hi, rfl⟩
  · rintro ⟨i, hi, rfl⟩
    exact ⟨i, mem_sortItems.mpr hi, rfl⟩

/-- C1: with the dedup cache enabled, every emitted item's URL is outside
the cache's stored set; the persisted set is the union of the old set and
the emitted URLs; and a second run over the unchanged item set against the
updated cache delivers zero items. -/
theorem claim_c1 (cache : DedupCache) (items : List Item) (now now2 : Int) :
    ((runDigest cache items now).1.all (fun i => !(decide (i.url ∈ cache.urls)))) = true ∧
      (∀ u, u ∈ (runDigest cache items now).2.urls ↔
        u ∈ cache.urls ∨ u ∈ ((runDigest cache items now).1.map Item.url)) ∧
      (runDigest (runDigest cache items now).2 items now2).1 = [] := by
  refine ⟨?_, ?_, ?_⟩
  · rw [List.all_eq_true]
    intro i hi
    have hmem : i ∈ cacheFilter cache (dedupeByUrl [] items) := mem_sortItems.mp hi
    exact (List.mem_filter.mp hmem).2
  · intro u
    simp only [runDigest, cacheUpdate, List.mem_append, List.mem_filter]
    rw [mem_map_url_sortItems]
    by_cases hc : u ∈ cache.urls
    · simp [hc]
    · simp [hc]
  · have hnil : cacheFilter (runDigest cache items now).2 (dedupeByUrl [] items) = [] := by
      rw [cacheFilter, List.filter_eq_nil_iff]
      intro i hi
      simp only [Bool.not_eq_true', decide_eq_false_iff_not, Decidable.not_not]
      simp only [runDigest, cacheUpdate, List.mem_append, List.mem_filter]
      by_cases hc : i.url ∈ cache.urls
      · exact Or.inl hc
      · refine Or.inr ⟨List.mem_map.mpr ⟨i, ?_, rfl⟩, ?_⟩
        · exact List.mem_filter.mpr ⟨hi, by simpa using hc⟩
        · simpa using hc
    show sortItems (cacheFilter (runDigest cache items now).2 (dedupeByUrl [] items)) = []
    rw [hnil, sortItems, List.mergeSort_nil]

theorem replaceAllGo_id (pat rep : List Char) :
    ∀ (fuel : Nat) (s : List Char), occursIn pat s = false →
      replaceAllGo pat rep fuel s = s := by
  intro fuel
  induction fuel with
  | zero =>
    intro s h
    cases s with
    | nil => rfl
    | cons c cs => rfl
  | succ fuel ih =>
    intro s h
    cases s with
    | nil => rfl
    | cons c cs =>
      rw [occursIn, Bool.or_eq_false_iff] at h
      rw [replaceAllGo, if_neg]
      · rw [ih cs h.2]
      · intro hc
        exact absurd hc.2 (by simp [h.1])

theorem replaceAll_id (pat rep s : List Char) (h : occursIn pat s = false) :
    replaceAll pat rep s = s :=
  replaceAllGo_id pat rep s.length s h

theorem decodeNumRefsGo_id : ∀ (fuel : Nat) (s : List Char),
    noNumRef s = true → decodeNumRefsGo fuel s = s := by
  intro fuel s
  induction fuel, s using decodeNumRefsGo.induct with
  | case1 t =>
    intro _
    cases t with
    | zero => rfl
    | succ t2 => rfl
  | case2 s hne =>
    intro _
    cases s with
    | nil => exact (hne rfl).elim
    | cons c cs => rfl
  | case3 fuel cs hok ih =>
    intro h
    rw [noNumRef] at h
    simp [numRefAt, hok] at h
  | case4 fuel cs hok ih =>
    intro h
    rw [noNumRef, Bool.and_eq_true] at h
    rw [decodeNumRefsGo, if_neg (by simp [hok])]
    rw [ih h.2]
  | case5 fuel c cs hne ih =>
    intro h
    rw [noNumRef, Bool.and_eq_true] at h
    rw [decodeNumRefsGo.eq_def]
    split
    · rename_i heq
      exact absurd heq (by simp)
    · rename_i hzero heq
      exact absurd hzero (by simp)
    · rename_i cs2 heqf heq
      injection heq with h1 h2
      exact (hne cs2 h1 h2).elim
    · rename_i hne2 heqf heq
      injection heq with h1 h2
      subst h1
      subst h2
      injection heqf with h3
      subst h3
      rw [ih h.2]

theorem decodeNumRefs_id (s : List Char) (h : noNumRef s = true) :
    decodeNumRefs s = s :=
  decodeNumRefsGo_id s.length s h

theorem occursIn_false_of_entityFree (pat s : List Char)
    (himp : ∀ t : List Char, headMatchCS pat t = true → startsEntity t = true)
    (h : entityFree s = true) : occursIn pat s = false := by
  induction s with
  | nil =>
    rw [occursIn]
    cases hm : headMatchCS pat [] with
    | false => rfl
    | true => exact absurd (himp [] hm) (by decide)
  | cons c cs ih =>
    rw [entityFree, Bool.and_eq_true] at h
    rw [occursIn, Bool.or_eq_false_iff]
    refine ⟨?_, ih h.2⟩
    cases hm : headMatchCS pat (c :: cs) with
    | false => rfl
    | true =>
      have hse := himp (c :: cs) hm
      rw [hse] at h
      simp at h

theorem noNumRef_of_entityFree (s : List Char) (h : entityFree s = true) :
    noNumRef s = true := by
  induction s with
  | nil => rfl
  | cons c cs ih =>
    rw [entityFree, Bool.and_eq_true] at h
    rw [noNumRef, Bool.and_eq_true]
    refine ⟨?_, ih h.2⟩
    cases hm : numRefAt (c :: cs) with
    | false => rfl
    | true =>
      have hse : startsEntity (c :: cs) = true := by
        rw [startsEntity, hm]
        simp
      rw [hse] at h
      simp at h

theorem decodeEntitiesL_id (s : List Char) (h : entityFree s = true) :
    decodeEntitiesL s = s := by
  have hocc : ∀ pat : List Char,
      (∀ t, headMatchCS pat t = true → startsEntity t = true) →
      occursIn pat s = false :=
    fun pat himp => occursIn_false_of_entityFree pat s himp h
  rw [decodeEntitiesL]
  rw [replaceAll_id _ _ _ (hocc _ (fun t ht => by rw [startsEntity, ht]; simp))]
  rw [replaceAll_id _ _ _ (hocc _ (fun t ht => by rw [startsEntity, ht]; simp))]
  rw [replaceAll_id _ _ _ (hocc _ (fun t ht => by rw [startsEntity, ht]; simp))]
  rw [replaceAll_id _ _ _ (hocc _ (fun t ht => by rw [startsEntity, ht]; simp))]
  rw [replaceAll_id _ _ _ (hocc _ (fun t ht => by rw [startsEntity, ht]; simp))]
  rw [replaceAll_id _ _ _ (hocc _ (fun t ht => by rw [startsEntity, ht]; simp))]
  rw [decodeNumRefs_id s (noNumRef_of_entityFree s h)]

/-- C9: the entity decoder is the identity on text free of entity syntax,
hence idempotent there: decoding twice equals decoding once, and no
double-decoding artifacts are introduced. -/
theorem claim_c9 (s : List Char) (h : entityFree s = true) :
    decodeEntitiesL s = s ∧
      decodeEntitiesL (decodeEntitiesL s) = decodeEntitiesL s := by
  have h1 := decodeEntitiesL_id s h
  exact ⟨h1, by rw [h1, h1]⟩

theorem claim_c9_witness :
    entityFree "hello & world".data = true ∧
      (decodeEntitiesL "hello & world".data = "hello & world".data ∧
        decodeEntitiesL (decodeEntitiesL "hello & world".data) =
          decodeEntitiesL "hello & world".data) :=
  ⟨by decide, claim_c9 "hello & world".data (by decide)⟩

/-- C10: one call of `decodeEntities` collapses the doubly-encoded entity
`&amp;lt;` to `<` (the output of the `&amp;` substitution is re-scanned by
the later `&lt;` substitution), rather than yielding the single-level
decoding `&lt;`. -/
theorem claim_c10 :
    decodeEntities "&amp;lt;" = "<" ∧ decodeEntities "&amp;lt;" ≠ "&lt;" := by
  constructor
  · rfl
  · decide

theorem lazyUntil_rest_length (hm : List Char → List Char → Bool)
    (closers : List (List Char)) (s content rest : List Char)
    (h : lazyUntil hm closers s = some (content, rest)) :
    rest.length ≤ s.length := by
  induction s generalizing content rest with
  | nil =>
    rw [lazyUntil] at h
    split at h
    · injection h with h2
      injection h2 with _ h3
      simp [← h3]
    · exact absurd h (by simp)
  | cons c cs ih =>
    rw [lazyUntil] at h
    split at h
    · injection h with h2
      injection h2 with _ h3
      rw [← h3]
      simp
    · split at h
      · rename_i content2 rest2 hrec
        injection h with h2
        injection h2 with _ h3
        have := ih content2 rest2 hrec
        rw [← h3]
        simp
        omega
      · exact absurd h (by simp)

theorem matchBlockAt_rest_length (name s b rest : List Char)
    (h : matchBlockAt name s = some (b, rest)) : rest.length < s.length := by
  rw [matchBlockAt.eq_def] at h
  split at h
  · rename_i tail
    split at h
    · split at h
      · exact absurd h (by simp)
      · rename_i d rest2 hdrop
        split at h
        · split at h
          · rename_i content after hlazy
            injection h with h2
            injection h2 with hb hrest
            have h4 := lazyUntil_rest_length headMatchCI
              [('<' :: '/' :: name) ++ ['>']] rest2 content after hlazy
            have h5 : (tail.drop name.length).length = rest2.length + 1 := by
              rw [hdrop]
              simp
            have h6 : (tail.drop name.length).length = tail.length - name.length := by
              simp
            subst hrest
            simp only [List.length_cons]
            omega
          · exact absurd h (by simp)
        · exact absurd h (by simp)
    · exact absurd h (by simp)
  · exact absurd h (by simp)

theorem collectItems_length_le (f : List Char → Except Unit (Option Item))
    (bs : List (List Char)) (out : List Item)
    (h : collectItems f bs = Except.ok out) : out.length ≤ bs.length := by
  induction bs generalizing out with
  | nil =>
    rw [collectItems] at h
    injection h with h2
    simp [← h2]
  | cons b rest ih =>
    rw [collectItems] at h
    split at h
    · exact absurd h (by simp)
    · have := ih out h
      simp only [List.length_cons]
      omega
    · split at h
      · exact absurd h (by simp)
      · rename_i i hrec out2 hrec2
        injection h with h2
        have := ih out2 hrec2
        simp only [← h2, List.length_cons]
        omega

unseal blockMatches in
/-- C3: refuted by the code.  On an item with a present but unparseable
date string, `new Date(pubDate).toISOString()` throws a `RangeError`
(modelled as `Except.error ()`), so the exception escapes `extractItems`
and the item is not emitted with `published = null` as claimed. -/
theorem claim_c3_bug :
    extractItems badDateXml "f" "c" = Except.error () := by decide

unseal blockMatches in
/-- C4 counterexample: a document that contains an RSS item block (so the
claim says the Atom path is never taken) whose RSS pass yields zero items;
`extractItems` then parses it via the Atom path and emits the entry's
item. -/
theorem claim_c4_counterexample :
    (blockMatches "item".data mixedXml).length = 1 ∧
      rssPass mixedXml "f" "c" = Except.ok [] ∧
      extractItems mixedXml "f" "c" =
        Except.ok [⟨"f", "c", "A", "", none, ""⟩] := by decide

/-- C4 (amended): the Atom path is attempted iff the RSS pass produced
zero items (not iff there were zero RSS blocks): when the RSS pass yields
a non-empty item list, that list is the result and Atom framing is never
consulted; when it yields zero items, the result is the Atom pass, which
emits at most one item per `entry` block. -/
theorem claim_c4_amended (xml : List Char) (f c : String) :
    (∀ r, rssPass xml f c = Except.ok r → r ≠ [] →
      extractItems xml f c = Except.ok r) ∧
    (rssPass xml f c = Except.ok [] →
      extractItems xml f c = atomPass xml f c ∧
      ∀ s, atomPass xml f c = Except.ok s →
        s.length ≤ (blockMatches "entry".data xml).length) := by
  constructor
  · intro r hr hne
    rw [extractItems, hr]
    simp [hne]
  · intro hr
    refine ⟨by rw [extractItems, hr]; simp, fun s hs => ?_⟩
    exact collectItems_length_le _ _ _ hs

unseal blockMatches in
theorem claim_c4_witness :
    (rssPass "<item><title>Hello</title></item>".data "f" "c" =
        Except.ok [⟨"f", "c", "Hello", "", none, ""⟩] ∧
      extractItems "<item><title>Hello</title></item>".data "f" "c" =
        Except.ok [⟨"f", "c", "Hello", "", none, ""⟩]) ∧
    (rssPass "<entry><title>A</title></entry>".data "f" "c" = Except.ok [] ∧
      extractItems "<entry><title>A</title></entry>".data "f" "c" =
        atomPass "<entry><title>A</title></entry>".data "f" "c" ∧
      atomPass "<entry><title>A</title></entry>".data "f" "c" =
        Except.ok [⟨"f", "c", "A", "", none, ""⟩] ∧
      ([(⟨"f", "c", "A", "", none, ""⟩ : Item)]).length ≤
        (blockMatches "entry".data "<entry><title>A</title></entry>".data).length) := by
  refine ⟨⟨by decide, ?_⟩, ⟨by decide, ?_, by decide, ?_⟩⟩
  · exact (claim_c4_amended "<item><title>Hello</title></item>".data "f" "c").1
      [⟨"f", "c", "Hello", "", none, ""⟩] (by decide) (by decide)
  · exact ((claim_c4_amended "<entry><title>A</title></entry>".data "f" "c").2
      (by decide)).1
  · exact ((claim_c4_amended "<entry><title>A</title></entry>".data "f" "c").2
      (by decide)).2 [⟨"f", "c", "A", "", none, ""⟩] (by decide)

theorem stripChain_nil :
    decodeEntitiesL ((jsTrim (stripTags (stripCdata []))).take 300) = [] := by decide

theorem decodeEntitiesL_nil : decodeEntitiesL [] = [] := by decide

theorem mkItemRecord_summary_eq (fn cat : String) (t : List Char)
    (link : Option (List Char)) (pub : Option Int) (c0 : Option (List Char)) :
    (mkItemRecord fn cat t link pub
      (c0.map (fun x => (jsTrim (stripTags (stripCdata x))).take 300))).summary =
    String.mk (decodeEntitiesL
      ((jsTrim (stripTags (stripCdata (c0.getD [])))).take 300)) := by
  cases c0 with
  | none =>
    simp [mkItemRecord, stripChain_nil]
  | some x =>
    by_cases hx : ((jsTrim (stripTags (stripCdata x))).take 300).isEmpty
    · have hempty : (jsTrim (stripTags (stripCdata x))).take 300 = [] :=
        List.isEmpty_iff.mp hx
      simp [mkItemRecord, hx, hempty, decodeEntitiesL_nil]
    · simp [mkItemRecord, hx]

theorem mkRssItem_summary_eq (fn cat : String) (raw : List Char) (i : Item)
    (h : mkRssItem fn cat raw = Except.ok (some i)) :
    i.summary = String.mk (decodeEntitiesL ((jsTrim (stripTags (stripCdata
      ((firstTagCapture ["description".data] raw).getD [])))).take 300)) := by
  simp only [mkRssItem] at h
  split at h
  · exact absurd h (by simp)
  · split at h
    · exact absurd h (by simp)
    · split at h
      · split at h
        · injection h with h2
          injection h2 with h3
          rw [← h3]
          exact mkItemRecord_summary_eq fn cat _ _ none
            (firstTagCapture ["description".data] raw)
        · split at h
          · injection h with h2
            injection h2 with h3
            rw [← h3]
            exact mkItemRecord_summary_eq fn cat _ _ _
              (firstTagCapture ["description".data] raw)
          · exact absurd h (by simp)
      · injection h with h2
        injection h2 with h3
        rw [← h3]
        exact mkItemRecord_summary_eq fn cat _ _ none
          (firstTagCapture ["description".data] raw)

theorem mkAtomItem_summary_eq (fn cat : String) (raw : List Char) (i : Item)
    (h : mkAtomItem fn cat raw = Except.ok (some i)) :
    i.summary = String.mk (decodeEntitiesL ((jsTrim (stripTags (stripCdata
      ((firstTagCapture ["summary".data, "content".data] raw).getD [])))).take 300)) := by
  simp only [mkAtomItem] at h
  split at h
  · exact absurd h (by simp)
  · split at h
    · exact absurd h (by simp)
    · split at h
      · split at h
        · injection h with h2
          injection h2 with h3
          rw [← h3]
          exact mkItemRecord_summary_eq fn cat _ _ none
            (firstTagCapture ["summary".data, "content".data] raw)
        · split at h
          · injection h with h2
            injection h2 with h3
            rw [← h3]
            exact mkItemRecord_summary_eq fn cat _ _ _
              (firstTagCapture ["summary".data, "content".data] raw)
          · exact absurd h (by simp)
      · injection h with h2
        injection h2 with h3
        rw [← h3]
        exact mkItemRecord_summary_eq fn cat _ _ none
          (firstTagCapture ["summary".data, "content".data] raw)

theorem collectItems_mem (f : List Char → Except Unit (Option Item))
    (bs : List (List Char)) (out : List Item) (i : Item)
    (h : collectItems f bs = Except.ok out) (hi : i ∈ out) :
    ∃ b, b ∈ bs ∧ f b = Except.ok (some i) := by
  induction bs generalizing out with
  | nil =>
    rw [collectItems] at h
    injection h with h2
    rw [← h2] at hi
    simp at hi
  | cons b rest ih =>
    rw [collectItems] at h
    split at h
    · exact absurd h (by simp)
    · obtain ⟨b2, hb2, hf2⟩ := ih out h hi
      exact ⟨b2, List.mem_cons_of_mem _ hb2, hf2⟩
    · rename_i j hjrec
      split at h
      · exact absurd h (by simp)
      · rename_i out2 hrec2
        injection h with h2
        rw [← h2] at hi
        rcases List.mem_cons.mp hi with rfl | hmem2
        · exact ⟨b, List.mem_cons_self _ _, hjrec⟩
        · obtain ⟨b2, hb2, hf2⟩ := ih out2 hrec2 hmem2
          exact ⟨b2, List.mem_cons_of_mem _ hb2, hf2⟩

set_option maxHeartbeats 16000000 in
unseal blockMatches in
/-- C8 counterexample: the code slices the description to 300 characters
before entity decoding, so the stored summary is 60 ampersands, while the
first 300 characters of the fully normalized (entity-decoded) text are 61
ampersands — the stored summary differs from what the claim prescribes. -/
theorem claim_c8_counterexample :
    extractItems c8xml.data "f" "c" =
      Except.ok [⟨"f", "c", "T", "", none, String.mk (List.replicate 60 '&')⟩] ∧
    specNormalizeSummary c8descStr.data = List.replicate 61 '&' ∧
    String.mk (List.replicate 60 '&') ≠ String.mk (List.replicate 61 '&') := by
  refine ⟨by decide, by decide, by decide⟩

/-- C8 (amended): the 300-character cap is applied after CDATA unwrapping,
tag stripping and trimming but before entity decoding: every extracted
item's stored summary equals `decodeEntities` of the first 300 characters
of the CDATA-unwrapped, tag-stripped, trimmed text of the item's own
capture — the `description` capture of the RSS block that produced the
item, or the `summary`/`content` capture of its Atom entry block (an
absent capture counts as the empty capture). -/
theorem claim_c8_amended (xml : List Char) (f c : String) (out : List Item)
    (i : Item) (hok : extractItems xml f c = Except.ok out) (hmem : i ∈ out) :
    (∃ b, b ∈ blockMatches "item".data xml ∧
      mkRssItem f c b = Except.ok (some i) ∧
      i.summary = String.mk (decodeEntitiesL ((jsTrim (stripTags (stripCdata
        ((firstTagCapture ["description".data] b).getD [])))).take 300))) ∨
    (∃ b, b ∈ blockMatches "entry".data xml ∧
      mkAtomItem f c b = Except.ok (some i) ∧
      i.summary = String.mk (decodeEntitiesL ((jsTrim (stripTags (stripCdata
        ((firstTagCapture ["summary".data, "content".data] b).getD [])))).take 300))) := by
  rw [extractItems] at hok
  split at hok
  · exact absurd hok (by simp)
  · rename_i items hrss
    split at hok
    · rw [atomPass] at hok
      obtain ⟨b, hb, hfb⟩ := collectItems_mem _ _ out i hok hmem
      exact Or.inr ⟨b, hb, hfb, mkAtomItem_summary_eq f c b i hfb⟩
    · injection hok with h2
      rw [← h2] at hmem
      rw [rssPass] at hrss
      obtain ⟨b, hb, hfb⟩ := collectItems_mem _ _ items i hrss hmem
      exact Or.inl ⟨b, hb, hfb, mkRssItem_summary_eq f c b i hfb⟩

unseal blockMatches in
theorem claim_c8_witness :
    (extractItems "<item><title>T</title><description>hi</description></item>".data
        "f" "c" = Except.ok [⟨"f", "c", "T", "", none, "hi"⟩]) ∧
    ((∃ b, b ∈ blockMatches "item".data
          "<item><title>T</title><description>hi</description></item>".data ∧
        mkRssItem "f" "c" b = Except.ok (some ⟨"f", "c", "T", "", none, "hi"⟩) ∧
        (⟨"f", "c", "T", "", none, "hi"⟩ : Item).summary =
          String.mk (decodeEntitiesL ((jsTrim (stripTags (stripCdata
            ((firstTagCapture ["description".data] b).getD [])))).take 300))) ∨
      (∃ b, b ∈ blockMatches "entry".data
          "<item><title>T</title><description>hi</description></item>".data ∧
        mkAtomItem "f" "c" b = Except.ok (some ⟨"f", "c", "T", "", none, "hi"⟩) ∧
        (⟨"f", "c", "T", "", none, "hi"⟩ : Item).summary =
          String.mk (decodeEntitiesL ((jsTrim (stripTags (stripCdata
            ((firstTagCapture ["summary".data, "content".data] b).getD [])))).take 300)))) :=
  ⟨by decide,
    claim_c8_amended "<item><title>T</title><description>hi</description></item>".data
      "f" "c" [⟨"f", "c", "T", "", none, "hi"⟩] ⟨"f", "c", "T", "", none, "hi"⟩
      (by decide) (by decide)⟩
